import Mathlib

/-!
Verification of the graph state engine and fuzzy matcher of the
avalon-roads portal-graph application.

The engine lives in `src/hooks/useGraphData.ts`; the fuzzy matcher in
`src/services/zoneValidator.ts`.  Pure functions are translated directly;
the React state cell (`useState` + `setGraphData`) is modelled by explicit
state passing: each operation takes the current `GraphData` snapshot and
returns the next one.  JavaScript timestamps (`Date.now()`, expirations,
minutes) are modelled as `Int`; the current time is an explicit argument.

The zone-classification data module (`src/data/zoneNames.ts`: `ZoneType`,
`getZoneType`, `ALL_ZONES`) is not present under `src/`; only its callers
are.  `ZoneType` is modelled from the spec (closed enumeration
{ROYAL, BLACK, AVALON, UNKNOWN}); the classifier `getZoneType` and the
vocabulary `ALL_ZONES` are taken as parameters, so every theorem holds for
every classifier and every vocabulary.
-/

/-! ## String primitives

JavaScript `String.prototype.trim` and `.toUpperCase` modelled over the
character list of a Lean `String`. -/

/-- JS `s.trim()`: drop leading and trailing whitespace. -/
def jsTrim (s : String) : String :=
  ⟨((s.data.dropWhile Char.isWhitespace).reverse.dropWhile Char.isWhitespace).reverse⟩

/-- JS `s.toUpperCase()` (ASCII case mapping). -/
def jsToUpper (s : String) : String := ⟨s.data.map Char.toUpper⟩

/-- `src/hooks/useGraphData.ts` line 12:
`const normalizeId = (id: string) => (id || '').trim().toUpperCase();`
(the `id || ''` guard only matters for null input, which the callers
exclude; all call sites pass actual strings). -/
def normalizeId (id : String) : String := jsToUpper (jsTrim id)

/-! ## Data model (`src/types.ts`) -/

/-- Modelled from the spec: `category`: one of a closed enumeration
{ROYAL, BLACK, AVALON, UNKNOWN} (the defining module
`src/data/zoneNames.ts` is not in the provided sources). -/
inductive ZoneType where
  | ROYAL
  | BLACK
  | AVALON
  | UNKNOWN
deriving DecidableEq, Repr

/-- A link endpoint at runtime is either a bare id string or a richer
node object (the force-graph rendering library mutates `link.source` /
`link.target` in place).  The code distinguishes the two with
`typeof link.source === 'object'` and reads `.id` in the object case. -/
inductive Endpoint where
  | str (s : String)
  | obj (id : String)
deriving DecidableEq, Repr

/-- `typeof e === 'object' ? e.id : e` — extract the bare id. -/
def endpointId : Endpoint → String
  | .str s => s
  | .obj i => i

/-- `CustomNode` of `src/types.ts`. -/
structure CustomNode where
  id : String
  name : String
  type : ZoneType
deriving DecidableEq, Repr

/-- `CustomLink` of `src/types.ts`; endpoints widened to `Endpoint`
because the rendering layer may replace the declared strings by objects. -/
structure CustomLink where
  source : Endpoint
  target : Endpoint
  expiration : Int
deriving DecidableEq, Repr

/-- `GraphData` of `src/types.ts`. -/
structure GraphData where
  nodes : List CustomNode
  links : List CustomLink
deriving DecidableEq, Repr

/-- `AlbionConnection` of `src/types.ts` (all fields nullable). -/
structure AlbionConnection where
  origem : Option String
  destino : Option String
  minutos_ate_fechar : Option Int
deriving DecidableEq, Repr

/-- The initial state: `useState<GraphData>({ nodes: [], links: [] })`. -/
def initialGraph : GraphData := ⟨[], []⟩

/-- JS `arr[i] = f(arr[i])` on a list (used for the in-place link update
`newLinks[existingLinkIndex] = { ...newLinks[existingLinkIndex], expiration }`). -/
def updateAt : Nat → (α → α) → List α → List α
  | _, _, [] => []
  | 0, f, x :: xs => f x :: xs
  | i + 1, f, x :: xs => x :: updateAt i f xs

/-- The unordered-pair match predicate of `findIndex` in `addConnection`:
`(sourceId === origemRaw && targetId === destinoRaw) ||
 (sourceId === destinoRaw && targetId === origemRaw)`. -/
def linkMatches (l : CustomLink) (o d : String) : Prop :=
  (endpointId l.source = o ∧ endpointId l.target = d) ∨
  (endpointId l.source = d ∧ endpointId l.target = o)

instance (l : CustomLink) (o d : String) : Decidable (linkMatches l o d) := by
  unfold linkMatches; infer_instance

/-! ## Graph state engine (`src/hooks/useGraphData.ts`) -/

/-- `addConnection` (lines 14-65).  `gz` is the external classifier
`getZoneType`; `now` is `Date.now()`. -/
def addConnection (gz : String → ZoneType) (now : Int)
    (connection : AlbionConnection) (g : GraphData) : GraphData :=
  match connection.origem, connection.destino, connection.minutos_ate_fechar with
  | some o, some d, some m =>
    -- `if (!connection.origem || !connection.destino || ...)`: the empty
    -- string is falsy in JS, so it is rejected here too.
    if o = "" ∨ d = "" then g
    else
      let origemRaw := normalizeId o
      let destinoRaw := normalizeId d
      if origemRaw = destinoRaw then g   -- self-loop: ignored
      else
        let nodes1 :=
          if (g.nodes.find? (fun node => node.id == origemRaw)).isNone
          then g.nodes ++ [⟨origemRaw, origemRaw, gz origemRaw⟩]
          else g.nodes
        let nodes2 :=
          if (nodes1.find? (fun node => node.id == destinoRaw)).isNone
          then nodes1 ++ [⟨destinoRaw, destinoRaw, gz destinoRaw⟩]
          else nodes1
        let expiration := now + m * 60 * 1000
        match g.links.findIdx? (fun l => decide (linkMatches l origemRaw destinoRaw)) with
        | some i =>
          ⟨nodes2, updateAt i (fun l => { l with expiration := expiration }) g.links⟩
        | none =>
          ⟨nodes2, g.links ++ [⟨.str origemRaw, .str destinoRaw, expiration⟩]⟩
  | _, _, _ => g   -- a null field: invalid connection, no-op

/-- `updateNodeName` (lines 67-119): returns the success flag together
with the next snapshot. -/
def updateNodeName (gz : String → ZoneType) (oldName newName : String)
    (g : GraphData) : Bool × GraphData :=
  if newName = "" ∨ jsTrim newName = "" then (false, g)
  else
    let normalizedOldId := normalizeId oldName
    let normalizedNewId := normalizeId newName
    if g.nodes.any (fun node => decide (node.id = normalizedNewId ∧ node.id ≠ normalizedOldId))
    then (false, g)
    else
      (true,
       ⟨g.nodes.map (fun node =>
          if node.id = normalizedOldId then
            { node with id := normalizedNewId, name := normalizedNewId,
                        type := gz normalizedNewId }
          else node),
        g.links.map (fun link =>
          let sourceId := endpointId link.source
          let targetId := endpointId link.target
          -- endpoints are always reset to bare id strings
          { link with
              source := .str (if sourceId = normalizedOldId then normalizedNewId else sourceId),
              target := .str (if targetId = normalizedOldId then normalizedNewId else targetId) })⟩)

/-- The expiration sweep (the `setInterval` body, lines 207-237),
as a pure function of the current time and snapshot. -/
def sweepExpired (now : Int) (g : GraphData) : GraphData :=
  let activeLinks := g.links.filter (fun link => decide (link.expiration > now))
  if activeLinks.length = g.links.length then g   -- no changes needed
  else
    let connectedNodeIds := activeLinks.flatMap (fun link => [endpointId link.source, endpointId link.target])
    ⟨g.nodes.filter (fun node => connectedNodeIds.contains node.id), activeLinks⟩

/-! ### Bulk sanitizing load (`setGraph`, lines 143-205) -/

/-- Input node for the bulk load: dirty data may lack the `type` field
(the code defaults it with `node.type || getZoneType(newId)`). -/
structure RawNode where
  id : String
  name : String
  type : Option ZoneType
deriving DecidableEq, Repr

/-- Input link for the bulk load (endpoints may be bare ids or objects). -/
structure RawLink where
  source : Endpoint
  target : Endpoint
  expiration : Int
deriving DecidableEq, Repr

/-- Input of `setGraph`. -/
structure RawGraphData where
  nodes : List RawNode
  links : List RawLink
deriving DecidableEq, Repr

/-- JS `Map.set`: overwrite the value of an existing key, else append. -/
def mapSet (m : List (String × String)) (k v : String) : List (String × String) :=
  if m.any (fun p => p.1 == k) then m.map (fun p => if p.1 = k then (k, v) else p)
  else m ++ [(k, v)]

/-- JS `Map.get` (first — and, under `mapSet`, only — binding of the key). -/
def mapGet (m : List (String × String)) (k : String) : Option String :=
  (m.find? (fun p => p.1 == k)).map (fun p => p.2)

/-- `idRemap.get(raw) || normalizeId(raw)`: the fallback also fires when
the stored value is the empty string (falsy in JS). -/
def resolveId (remap : List (String × String)) (raw : String) : String :=
  match mapGet remap raw with
  | some v => if v = "" then normalizeId raw else v
  | none => normalizeId raw

/-- Accumulator of the node pass of `setGraph`: the `sanitizedNodes`
array, the `nodeIds` set (as the list of ids in insertion order) and the
`idRemap` map. -/
structure SanState where
  nodes : List CustomNode
  nodeIds : List String
  remap : List (String × String)

/-- One step of `data.nodes.forEach(...)` in `setGraph`. -/
def setGraphNodeStep (gz : String → ZoneType) (st : SanState) (node : RawNode) : SanState :=
  let oldId := node.id
  let newId := normalizeId oldId
  let remap := mapSet st.remap oldId newId
  if st.nodeIds.contains newId then
    { st with remap := remap }
  else
    { nodes := st.nodes ++ [⟨newId, newId, node.type.getD (gz newId)⟩],
      nodeIds := st.nodeIds ++ [newId],
      remap := remap }

/-- One step of `data.links.forEach(...)` in `setGraph`. -/
def setGraphLinkStep (st : SanState) (acc : List CustomLink) (link : RawLink) : List CustomLink :=
  let rawSource := endpointId link.source
  let rawTarget := endpointId link.target
  let sourceId := resolveId st.remap rawSource
  let targetId := resolveId st.remap rawTarget
  if st.nodeIds.contains sourceId ∧ st.nodeIds.contains targetId then
    if sourceId ≠ targetId then
      acc ++ [⟨.str sourceId, .str targetId, link.expiration⟩]
    else acc
  else acc

/-- `setGraph` (lines 143-205): bulk replace with sanitization. -/
def setGraph (gz : String → ZoneType) (data : RawGraphData) : GraphData :=
  let st := data.nodes.foldl (setGraphNodeStep gz) ⟨[], [], []⟩
  let links := data.links.foldl (setGraphLinkStep st) []
  ⟨st.nodes, links⟩

/-- A sequence of `addConnection` calls (each with its own `Date.now()`)
starting from the empty graph. -/
def runConnections (gz : String → ZoneType) (cs : List (Int × AlbionConnection)) : GraphData :=
  cs.foldl (fun g p => addConnection gz p.1 p.2 g) initialGraph

/-! ## Claim C7: invalid observations are silently rejected -/

/-- Claim C7: for every graph, `addConnection` is a no-op that leaves the
graph unchanged (and raises no error: it is a total function) whenever the
observation has a null or empty origin, a null or empty destination, a
null `minutos_ate_fechar`, or endpoints that are equal after
normalization (a self-loop, e.g. "ZONE A" vs "zone a"). -/
theorem claim_c7 (gz : String → ZoneType) (now : Int)
    (c : AlbionConnection) (g : GraphData)
    (h : c.origem = none ∨ c.origem = some "" ∨
         c.destino = none ∨ c.destino = some "" ∨
         c.minutos_ate_fechar = none ∨
         (∃ o d, c.origem = some o ∧ c.destino = some d ∧
            normalizeId o = normalizeId d)) :
    addConnection gz now c g = g := by
  obtain ⟨o, d, m⟩ := c
  simp only [addConnection]
  rcases h with h | h | h | h | h | ⟨o', d', ho, hd, hnorm⟩ <;>
    simp_all only [Option.some.injEq] <;> cases o <;> cases d <;> cases m <;>
    simp_all only [] <;> split <;> simp_all

/-- Witness for C7 at the spec's own example: a self-loop differing only
by case is a no-op on the empty graph. -/
theorem claim_c7_witness :
    addConnection (fun _ => ZoneType.UNKNOWN) 0
      ⟨some "ZONE A", some "zone a", some 10⟩ initialGraph = initialGraph :=
  claim_c7 _ 0 _ _
    (Or.inr (Or.inr (Or.inr (Or.inr (Or.inr
      ⟨"ZONE A", "zone a", rfl, rfl, by decide⟩)))))

/-! ## Claim C10: whitespace-only origin slips past the guard -/

/-- Claim C10: an origin that is non-empty but all whitespace is not
rejected by the invalid-input guard: it normalizes to the empty string and
the call inserts a node with empty id and name plus an edge incident to
that empty-id node. -/
theorem claim_c10 :
    normalizeId "  " = "" ∧
    addConnection (fun _ => ZoneType.UNKNOWN) 0
        ⟨some "  ", some "B", some 10⟩ initialGraph =
      ⟨[⟨"", "", ZoneType.UNKNOWN⟩, ⟨"B", "B", ZoneType.UNKNOWN⟩],
       [⟨.str "", .str "B", 600000⟩]⟩ := by
  constructor
  · decide
  · decide

/-! ## Claim C4: the sanitizing load does not deduplicate edges by pair -/

/-- Claim C4: there is an input to `setGraph` with two edge entries for
the same unordered pair of two distinct surviving nodes such that both
edges survive sanitization. -/
theorem claim_c4 :
    (setGraph (fun _ => ZoneType.UNKNOWN)
       ⟨[⟨"A", "A", none⟩, ⟨"B", "B", none⟩],
        [⟨.str "A", .str "B", 1⟩, ⟨.str "A", .str "B", 2⟩]⟩ =
     ⟨[⟨"A", "A", ZoneType.UNKNOWN⟩, ⟨"B", "B", ZoneType.UNKNOWN⟩],
      [⟨.str "A", .str "B", 1⟩, ⟨.str "A", .str "B", 2⟩]⟩) ∧
    -- both surviving links connect the same unordered pair of distinct,
    -- surviving node ids
    (∀ l ∈ (setGraph (fun _ => ZoneType.UNKNOWN)
       ⟨[⟨"A", "A", none⟩, ⟨"B", "B", none⟩],
        [⟨.str "A", .str "B", 1⟩, ⟨.str "A", .str "B", 2⟩]⟩).links,
        linkMatches l "A" "B") ∧
    (setGraph (fun _ => ZoneType.UNKNOWN)
       ⟨[⟨"A", "A", none⟩, ⟨"B", "B", none⟩],
        [⟨.str "A", .str "B", 1⟩, ⟨.str "A", .str "B", 2⟩]⟩).links.length = 2 ∧
    ("A" : String) ≠ "B" := by
  refine ⟨by decide, by decide, by decide, by decide⟩

/-! ## Claim C6: rename failure modes leave the graph untouched -/

/-- Claim C6: `updateNodeName` returns `false` and leaves the graph
unchanged whenever the new name is empty (or trims to empty) or its
normalization is the id of an existing node different from the normalized
old name.  (No exception can be raised: the operation is a total
function.) -/
theorem claim_c6 (gz : String → ZoneType) (oldName newName : String)
    (g : GraphData)
    (h : (newName = "" ∨ jsTrim newName = "") ∨
         (∃ n ∈ g.nodes, n.id = normalizeId newName ∧ n.id ≠ normalizeId oldName)) :
    updateNodeName gz oldName newName g = (false, g) := by
  simp only [updateNodeName]
  rcases h with h | ⟨n, hn, hid, hne⟩
  · rw [if_pos h]
  · split
    · rfl
    · rw [if_pos]
      exact List.any_eq_true.mpr ⟨n, hn, by simp only [decide_eq_true_eq]; exact ⟨hid, hne⟩⟩

/-- Witness for C6 at the spec's own example: nodes "A" and "B" both
exist, so renaming "A" to "B" fails and leaves the graph identical. -/
theorem claim_c6_witness :
    updateNodeName (fun _ => ZoneType.UNKNOWN) "A" "B"
      ⟨[⟨"A", "A", ZoneType.UNKNOWN⟩, ⟨"B", "B", ZoneType.UNKNOWN⟩], []⟩ =
    (false, ⟨[⟨"A", "A", ZoneType.UNKNOWN⟩, ⟨"B", "B", ZoneType.UNKNOWN⟩], []⟩) :=
  claim_c6 _ "A" "B" _
    (Or.inr ⟨⟨"B", "B", ZoneType.UNKNOWN⟩, by decide, by decide, by decide⟩)

/-! ## Claim C5: rename propagation -/

/-- Counterexample to claim C5 as stated: the graph `{nodes: [A], links: []}`
contains a node with id `normalizeId "A"`, and `normalizeId ""` is not the
id of a different node, yet `updateNodeName "A" ""` does not succeed — the
empty-name guard (which the claim omits) rejects it first. -/
theorem claim_c5_counterexample :
    (∃ n ∈ (⟨[⟨"A", "A", ZoneType.UNKNOWN⟩], []⟩ : GraphData).nodes,
       n.id = normalizeId "A") ∧
    (¬ ∃ n ∈ (⟨[⟨"A", "A", ZoneType.UNKNOWN⟩], []⟩ : GraphData).nodes,
       n.id = normalizeId "" ∧ n.id ≠ normalizeId "A") ∧
    (updateNodeName (fun _ => ZoneType.UNKNOWN) "A" ""
       ⟨[⟨"A", "A", ZoneType.UNKNOWN⟩], []⟩).1 = false := by
  refine ⟨by decide, by decide, by decide⟩

/-- Claim C5 (amended: additionally require that the new name does not
trim to the empty string, which the code's first guard demands): if the
graph contains a node with id `normalizeId oldName` and `normalizeId
newName` is not the id of a different node, the rename succeeds; the
matching node's id and name become the new id, every link endpoint equal
to the old id is rewritten to the new id, every other endpoint is
collapsed to its bare id string, and expirations are unchanged. -/
theorem claim_c5 (gz : String → ZoneType) (oldName newName : String)
    (g : GraphData)
    (htrim : jsTrim newName ≠ "")
    (hold : ∃ n ∈ g.nodes, n.id = normalizeId oldName)
    (hcol : ∀ n ∈ g.nodes, n.id = normalizeId newName → n.id = normalizeId oldName) :
    (updateNodeName gz oldName newName g).1 = true ∧
    (updateNodeName gz oldName newName g).2.nodes =
      g.nodes.map (fun n =>
        if n.id = normalizeId oldName then
          ⟨normalizeId newName, normalizeId newName, gz (normalizeId newName)⟩
        else n) ∧
    (updateNodeName gz oldName newName g).2.links =
      g.links.map (fun l =>
        ⟨.str (if endpointId l.source = normalizeId oldName then normalizeId newName
               else endpointId l.source),
         .str (if endpointId l.target = normalizeId oldName then normalizeId newName
               else endpointId l.target),
         l.expiration⟩) := by
  have hne : newName ≠ "" := by
    intro h
    exact htrim (by simp [h]; rfl)
  have hguard : ¬ (newName = "" ∨ jsTrim newName = "") := by
    rintro (h | h)
    · exact hne h
    · exact htrim h
  have hany : g.nodes.any
      (fun node => decide (node.id = normalizeId newName ∧ node.id ≠ normalizeId oldName)) = false := by
    rw [List.any_eq_false]
    intro n hn
    simp only [decide_eq_true_eq, not_and, not_not]
    exact hcol n hn
  simp only [updateNodeName, if_neg hguard, hany]
  exact ⟨rfl, rfl, rfl⟩

/-- Witness for C5 at the spec's own example: edge (A, C) and
`updateNodeName("A","Z")`. -/
theorem claim_c5_witness :
    (updateNodeName (fun _ => ZoneType.UNKNOWN) "A" "Z"
       ⟨[⟨"A", "A", ZoneType.UNKNOWN⟩, ⟨"C", "C", ZoneType.UNKNOWN⟩],
        [⟨.str "A", .str "C", 5⟩]⟩).1 = true ∧
    (updateNodeName (fun _ => ZoneType.UNKNOWN) "A" "Z"
       ⟨[⟨"A", "A", ZoneType.UNKNOWN⟩, ⟨"C", "C", ZoneType.UNKNOWN⟩],
        [⟨.str "A", .str "C", 5⟩]⟩).2 =
      ⟨[⟨"Z", "Z", ZoneType.UNKNOWN⟩, ⟨"C", "C", ZoneType.UNKNOWN⟩],
       [⟨.str "Z", .str "C", 5⟩]⟩ := by
  have h := claim_c5 (fun _ => ZoneType.UNKNOWN) "A" "Z"
    ⟨[⟨"A", "A", ZoneType.UNKNOWN⟩, ⟨"C", "C", ZoneType.UNKNOWN⟩],
     [⟨.str "A", .str "C", 5⟩]⟩
    (by decide) ⟨⟨"A", "A", ZoneType.UNKNOWN⟩, by decide, by decide⟩ (by decide)
  obtain ⟨h1, h2, h3⟩ := h
  refine ⟨h1, ?_⟩
  have hn : (updateNodeName (fun _ => ZoneType.UNKNOWN) "A" "Z"
       ⟨[⟨"A", "A", ZoneType.UNKNOWN⟩, ⟨"C", "C", ZoneType.UNKNOWN⟩],
        [⟨.str "A", .str "C", 5⟩]⟩).2.nodes =
      [⟨"Z", "Z", ZoneType.UNKNOWN⟩, ⟨"C", "C", ZoneType.UNKNOWN⟩] := by
    rw [h2]; decide
  have hl : (updateNodeName (fun _ => ZoneType.UNKNOWN) "A" "Z"
       ⟨[⟨"A", "A", ZoneType.UNKNOWN⟩, ⟨"C", "C", ZoneType.UNKNOWN⟩],
        [⟨.str "A", .str "C", 5⟩]⟩).2.links =
      [⟨.str "Z", .str "C", 5⟩] := by
    rw [h3]; decide
  cases hres : (updateNodeName (fun _ => ZoneType.UNKNOWN) "A" "Z"
       ⟨[⟨"A", "A", ZoneType.UNKNOWN⟩, ⟨"C", "C", ZoneType.UNKNOWN⟩],
        [⟨.str "A", .str "C", 5⟩]⟩).2 with
  | mk ns ls => rw [hres] at hn hl; simp at hn hl; rw [hn, hl]

/-! ## Claim C2: the expiration sweep -/

/-- The `connectedNodeIds` collection of the sweep contains an id exactly
when some active link touches it. -/
lemma contains_connected_ids (ls : List CustomLink) (x : String) :
    (ls.flatMap (fun l => [endpointId l.source, endpointId l.target])).contains x =
    ls.any (fun l => decide (endpointId l.source = x ∨ endpointId l.target = x)) := by
  rw [Bool.eq_iff_iff]
  simp only [List.contains, List.elem_iff, List.mem_flatMap, List.any_eq_true,
    decide_eq_true_eq, List.mem_cons, List.mem_singleton, List.not_mem_nil, or_false]
  constructor
  · rintro ⟨l, hl, h | h⟩
    · exact ⟨l, hl, Or.inl h.symm⟩
    · exact ⟨l, hl, Or.inr h.symm⟩
  · rintro ⟨l, hl, h | h⟩
    · exact ⟨l, hl, Or.inl h.symm⟩
    · exact ⟨l, hl, Or.inr h.symm⟩

/-- Counterexample to claim C2 as stated: on the graph with one node "A"
and no links, no edge is expired, so the sweep returns the snapshot
unchanged — keeping node "A" even though it is incident to no kept edge.
The "keeps exactly the nodes incident to at least one kept edge" part
therefore does not hold unconditionally. -/
theorem claim_c2_counterexample :
    sweepExpired 0 ⟨[⟨"A", "A", ZoneType.UNKNOWN⟩], []⟩ =
      ⟨[⟨"A", "A", ZoneType.UNKNOWN⟩], []⟩ ∧
    ¬ ((sweepExpired 0 ⟨[⟨"A", "A", ZoneType.UNKNOWN⟩], []⟩).nodes =
        (⟨[⟨"A", "A", ZoneType.UNKNOWN⟩], []⟩ : GraphData).nodes.filter (fun n =>
          ((⟨[⟨"A", "A", ZoneType.UNKNOWN⟩], []⟩ : GraphData).links.filter
              (fun l => decide (l.expiration > 0))).any
            (fun l => decide (endpointId l.source = n.id ∨ endpointId l.target = n.id)))) := by
  refine ⟨by decide, by decide⟩

/-- Claim C2 (amended: the node clause holds when at least one edge is
expired; when no edge is expired the sweep returns the very same snapshot,
orphan nodes included): the sweep keeps exactly the links with
`expiration > now`; if some edge is expired, it keeps exactly the nodes
incident to at least one kept link, in the same pass. -/
theorem claim_c2 (now : Int) (g : GraphData) :
    (sweepExpired now g).links = g.links.filter (fun l => decide (l.expiration > now)) ∧
    ((∃ l ∈ g.links, l.expiration ≤ now) →
      (sweepExpired now g).nodes = g.nodes.filter (fun n =>
        (g.links.filter (fun l => decide (l.expiration > now))).any
          (fun l => decide (endpointId l.source = n.id ∨ endpointId l.target = n.id)))) ∧
    ((∀ l ∈ g.links, l.expiration > now) → sweepExpired now g = g) := by
  by_cases h : (g.links.filter (fun l => decide (l.expiration > now))).length = g.links.length
  · have hself : g.links.filter (fun l => decide (l.expiration > now)) = g.links :=
      List.filter_eq_self.mpr (List.filter_length_eq_length.mp h)
    have hg : sweepExpired now g = g := by
      simp only [sweepExpired, if_pos h]
    refine ⟨by rw [hg, hself], ?_, fun _ => hg⟩
    rintro ⟨l, hl, hexp⟩
    have := List.filter_length_eq_length.mp h l hl
    simp only [decide_eq_true_eq] at this
    omega
  · have hg : sweepExpired now g =
        ⟨g.nodes.filter (fun n =>
           ((g.links.filter (fun l => decide (l.expiration > now))).flatMap
               (fun l => [endpointId l.source, endpointId l.target])).contains n.id),
         g.links.filter (fun l => decide (l.expiration > now))⟩ := by
      simp only [sweepExpired, if_neg h]
    refine ⟨by rw [hg], ?_, ?_⟩
    · intro _
      rw [hg]
      exact List.filter_congr fun n _ => contains_connected_ids _ _
    · intro hall
      exfalso
      exact h (List.filter_length_eq_length.mpr fun l hl => by
        simp only [decide_eq_true_eq]; exact hall l hl)

/-- Witness for C2 at the spec's own examples: at `now = 100`, an edge
with expiration `99 = now - 1` is removed and its endpoint nodes (for
which it was the only connection) are removed in the same sweep, while a
graph whose only edge has expiration `now + 60000` is left untouched. -/
theorem claim_c2_witness :
    (sweepExpired 100 ⟨[⟨"A", "A", ZoneType.UNKNOWN⟩, ⟨"B", "B", ZoneType.UNKNOWN⟩],
        [⟨.str "A", .str "B", 99⟩]⟩).links = [] ∧
    (sweepExpired 100 ⟨[⟨"A", "A", ZoneType.UNKNOWN⟩, ⟨"B", "B", ZoneType.UNKNOWN⟩],
        [⟨.str "A", .str "B", 99⟩]⟩).nodes = [] ∧
    sweepExpired 100 ⟨[⟨"A", "A", ZoneType.UNKNOWN⟩, ⟨"B", "B", ZoneType.UNKNOWN⟩],
        [⟨.str "A", .str "B", 60100⟩]⟩ =
      ⟨[⟨"A", "A", ZoneType.UNKNOWN⟩, ⟨"B", "B", ZoneType.UNKNOWN⟩],
       [⟨.str "A", .str "B", 60100⟩]⟩ := by
  refine ⟨?_, ?_, ?_⟩
  · rw [(claim_c2 100 _).1]; decide
  · rw [(claim_c2 100 _).2.1 ⟨⟨.str "A", .str "B", 99⟩, by decide, by decide⟩]; decide
  · exact (claim_c2 100 _).2.2 (by decide)

/-! ## Claim C1: at most one edge per unordered pair -/

/-- No two links of the graph connect the same unordered pair of node
ids (ids extracted from possibly-object endpoints). -/
def NoDuplicatePairs (g : GraphData) : Prop :=
  g.links.Pairwise (fun l1 l2 => ¬ linkMatches l1 (endpointId l2.source) (endpointId l2.target))

/-- `updateAt` preserves the length of the list. -/
lemma updateAt_length (f : α → α) (i : Nat) (l : List α) :
    (updateAt i f l).length = l.length := by
  induction l generalizing i with
  | nil => simp [updateAt]
  | cons x xs ih =>
    cases i with
    | zero => simp [updateAt]
    | succ i => simp [updateAt, ih]

/-- Every element of `updateAt i f l` is an element of `l` or the image
under `f` of one. -/
lemma mem_updateAt (f : α → α) (i : Nat) (l : List α) (y : α)
    (hy : y ∈ updateAt i f l) : ∃ b ∈ l, y = b ∨ y = f b := by
  induction l generalizing i with
  | nil => simp [updateAt] at hy
  | cons x xs ih =>
    cases i with
    | zero =>
      simp only [updateAt, List.mem_cons] at hy
      rcases hy with rfl | hy
      · exact ⟨x, List.mem_cons_self .., Or.inr rfl⟩
      · exact ⟨y, List.mem_cons_of_mem _ hy, Or.inl rfl⟩
    | succ i =>
      simp only [updateAt, List.mem_cons] at hy
      rcases hy with rfl | hy
      · exact ⟨y, List.mem_cons_self .., Or.inl rfl⟩
      · obtain ⟨b, hb, hyb⟩ := ih i hy
        exact ⟨b, List.mem_cons_of_mem _ hb, hyb⟩

/-- `updateAt` preserves `Pairwise R` when `f` respects `R` on both
sides. -/
lemma pairwise_updateAt {R : α → α → Prop} (f : α → α) (i : Nat) (l : List α)
    (hf1 : ∀ a b, R a b → R a (f b)) (hf2 : ∀ a b, R a b → R (f a) b)
    (h : l.Pairwise R) : (updateAt i f l).Pairwise R := by
  induction l generalizing i with
  | nil => simpa [updateAt] using h
  | cons x xs ih =>
    obtain ⟨hx, hxs⟩ := List.pairwise_cons.mp h
    cases i with
    | zero => exact List.Pairwise.cons (fun y hy => hf2 _ _ (hx y hy)) hxs
    | succ i =>
      refine List.Pairwise.cons ?_ (ih i hxs)
      intro y hy
      obtain ⟨b, hb, h1 | h1⟩ := mem_updateAt f i xs y hy
      · subst h1; exact hx _ hb
      · subst h1; exact hf1 _ _ (hx _ hb)

/-- A single `addConnection` call preserves the no-duplicate-pairs
invariant. -/
lemma noDuplicatePairs_addConnection (gz : String → ZoneType) (now : Int)
    (c : AlbionConnection) (g : GraphData) (h : NoDuplicatePairs g) :
    NoDuplicatePairs (addConnection gz now c g) := by
  obtain ⟨o, d, m⟩ := c
  cases o with
  | none => exact h
  | some o =>
    cases d with
    | none => exact h
    | some d =>
      cases m with
      | none => exact h
      | some m =>
        simp only [addConnection]
        split
        · exact h
        · split
          · exact h
          · split
            · -- existing link found: only its expiration changes
              exact pairwise_updateAt _ _ _ (fun a b hab => hab) (fun a b hab => hab) h
            · -- no existing link: the new pair clashes with no stored link
              rename_i heq
              refine List.pairwise_append.mpr ⟨h, List.pairwise_singleton .., ?_⟩
              intro a ha b hb
              rcases List.mem_singleton.mp hb with rfl
              have hnone := List.findIdx?_eq_none_iff.mp heq a ha
              simp only [decide_eq_false_iff_not] at hnone
              exact hnone

/-- Claim C1: every sequence of `addConnection` calls starting from the
empty graph maintains at most one edge per unordered pair of node ids;
and a call whose normalized endpoints match an existing edge (in either
orientation) rewrites that edge's expiration in place — same link list
length, no insertion. -/
theorem claim_c1 (gz : String → ZoneType) (cs : List (Int × AlbionConnection)) :
    NoDuplicatePairs (runConnections gz cs) ∧
    (∀ (now : Int) (c : AlbionConnection) (g : GraphData) (o d : String) (m : Int) (i : Nat),
      c = ⟨some o, some d, some m⟩ → o ≠ "" → d ≠ "" →
      normalizeId o ≠ normalizeId d →
      g.links.findIdx? (fun l => decide (linkMatches l (normalizeId o) (normalizeId d))) = some i →
      (addConnection gz now c g).links =
        updateAt i (fun l => { l with expiration := now + m * 60 * 1000 }) g.links ∧
      (addConnection gz now c g).links.length = g.links.length) := by
  constructor
  · suffices hstep : ∀ (cs : List (Int × AlbionConnection)) (g : GraphData),
        NoDuplicatePairs g →
        NoDuplicatePairs (cs.foldl (fun g p => addConnection gz p.1 p.2 g) g) by
      exact hstep cs initialGraph List.Pairwise.nil
    intro cs
    induction cs with
    | nil => exact fun g h => h
    | cons p ps ih =>
      exact fun g h => ih _ (noDuplicatePairs_addConnection gz p.1 p.2 g h)
  · rintro now c g o d m i rfl ho hd hnorm hfind
    have hguard : ¬ (o = "" ∨ d = "") := by
      rintro (h | h)
      · exact ho h
      · exact hd h
    simp only [addConnection, if_neg hguard, if_neg hnorm, hfind]
    exact ⟨trivial, updateAt_length _ _ _⟩

/-- Witness for C1: a two-call run (second call repeats the pair with the
endpoints swapped and differently cased) keeps a single edge, and the
repeat call is an in-place expiration update of link 0. -/
theorem claim_c1_witness :
    NoDuplicatePairs (runConnections (fun _ => ZoneType.UNKNOWN)
      [(0, ⟨some "a", some "b", some 5⟩), (100, ⟨some "B", some " A ", some 7⟩)]) ∧
    (addConnection (fun _ => ZoneType.UNKNOWN) 100 ⟨some "B", some " A ", some 7⟩
        ⟨[⟨"A", "A", ZoneType.UNKNOWN⟩, ⟨"B", "B", ZoneType.UNKNOWN⟩],
         [⟨.str "A", .str "B", 300000⟩]⟩).links =
      updateAt 0 (fun l => { l with expiration := 100 + 7 * 60 * 1000 })
        [⟨.str "A", .str "B", 300000⟩] :=
  ⟨(claim_c1 (fun _ => ZoneType.UNKNOWN)
      [(0, ⟨some "a", some "b", some 5⟩), (100, ⟨some "B", some " A ", some 7⟩)]).1,
   ((claim_c1 (fun _ => ZoneType.UNKNOWN) []).2 100 _ _ "B" " A " 7 0 rfl
      (by decide) (by decide) (by decide) (by decide)).1⟩

/-! ## Claim C3: the sanitizing bulk load -/

/-- The spec's step 2, as worded: the first node to produce a given
normalized id is kept (name forced equal to the id, category defaulted
from the classifier if absent); later nodes mapping to an already-seen
normalized id are dropped. -/
def sanitizeNodesSpec (gz : String → ZoneType) (seen : List String) :
    List RawNode → List CustomNode
  | [] => []
  | n :: ns =>
    let newId := normalizeId n.id
    if newId ∈ seen then sanitizeNodesSpec gz seen ns
    else ⟨newId, newId, n.type.getD (gz newId)⟩ :: sanitizeNodesSpec gz (seen ++ [newId]) ns

/-- The spec's step 3, as worded: each endpoint is resolved through the
raw-to-normalized mapping (which sends every raw id to its normalization,
also as the fallback), and an edge is kept only when both resolved
endpoints are surviving node ids and differ. -/
def sanitizeLinksSpec (surviving : List String) (ls : List RawLink) : List CustomLink :=
  ls.filterMap (fun l =>
    let a := normalizeId (endpointId l.source)
    let b := normalizeId (endpointId l.target)
    if a ∈ surviving ∧ b ∈ surviving ∧ a ≠ b then some ⟨.str a, .str b, l.expiration⟩
    else none)

/-- Every binding the node pass ever stores maps a raw id to its
normalization, so the lookup-with-fallback is plain normalization. -/
lemma resolveId_eq_normalizeId (m : List (String × String))
    (hm : ∀ p ∈ m, p.2 = normalizeId p.1) (raw : String) :
    resolveId m raw = normalizeId raw := by
  unfold resolveId mapGet
  cases hfind : m.find? (fun p => p.1 == raw) with
  | none => rfl
  | some p =>
    have hkey : p.1 = raw := by simpa using List.find?_some hfind
    have hval : p.2 = normalizeId p.1 := hm p (List.mem_of_find?_eq_some hfind)
    show (if p.2 = "" then normalizeId raw else p.2) = normalizeId raw
    rw [hval, hkey]
    split <;> rfl

/-- `mapSet` with a normalized value preserves the normalization
invariant of the remap table. -/
lemma mapSet_preserves (m : List (String × String)) (k : String)
    (hm : ∀ p ∈ m, p.2 = normalizeId p.1) :
    ∀ p ∈ mapSet m k (normalizeId k), p.2 = normalizeId p.1 := by
  intro p hp
  unfold mapSet at hp
  split at hp
  · obtain ⟨q, hq, hpq⟩ := List.mem_map.mp hp
    by_cases hqk : q.1 = k
    · simp only [if_pos hqk] at hpq
      subst hpq; rfl
    · simp only [if_neg hqk] at hpq
      subst hpq; exact hm q hq
  · rcases List.mem_append.mp hp with h | h
    · exact hm p h
    · rcases List.mem_singleton.mp h with rfl
      rfl


/-- Invariant of the node pass of `setGraph`: the `nodeIds` set is the
list of ids of the sanitized nodes, the remap table only stores
normalizations, and the produced nodes are the spec's keep-first list. -/
lemma setGraph_nodes_loop (gz : String → ZoneType) :
    ∀ (ns : List RawNode) (sn : List CustomNode) (si : List String)
      (sr : List (String × String)),
    si = sn.map (fun n => n.id) →
    (∀ p ∈ sr, p.2 = normalizeId p.1) →
    (ns.foldl (setGraphNodeStep gz) ⟨sn, si, sr⟩).nodes =
        sn ++ sanitizeNodesSpec gz si ns ∧
    (ns.foldl (setGraphNodeStep gz) ⟨sn, si, sr⟩).nodeIds =
        (ns.foldl (setGraphNodeStep gz) ⟨sn, si, sr⟩).nodes.map (fun n => n.id) ∧
    (∀ p ∈ (ns.foldl (setGraphNodeStep gz) ⟨sn, si, sr⟩).remap,
        p.2 = normalizeId p.1) := by
  intro ns
  induction ns with
  | nil =>
    intro sn si sr h1 h2
    exact ⟨by simp [sanitizeNodesSpec], h1, h2⟩
  | cons n ns ih =>
    intro sn si sr h1 h2
    simp only [List.foldl_cons]
    by_cases hseen : normalizeId n.id ∈ si
    · have hstep : setGraphNodeStep gz ⟨sn, si, sr⟩ n =
          ⟨sn, si, mapSet sr n.id (normalizeId n.id)⟩ := by
        simp only [setGraphNodeStep]
        rw [if_pos (List.elem_iff.mpr hseen)]
      rw [hstep]
      obtain ⟨g1, g2, g3⟩ :=
        ih sn si (mapSet sr n.id (normalizeId n.id)) h1 (mapSet_preserves _ _ h2)
      refine ⟨?_, g2, g3⟩
      rw [g1]
      simp only [sanitizeNodesSpec]
      rw [if_pos hseen]
    · have hstep : setGraphNodeStep gz ⟨sn, si, sr⟩ n =
          ⟨sn ++ [⟨normalizeId n.id, normalizeId n.id, n.type.getD (gz (normalizeId n.id))⟩],
           si ++ [normalizeId n.id], mapSet sr n.id (normalizeId n.id)⟩ := by
        simp only [setGraphNodeStep]
        rw [if_neg (fun hc => hseen (List.elem_iff.mp hc))]
      rw [hstep]
      obtain ⟨g1, g2, g3⟩ :=
        ih (sn ++ [⟨normalizeId n.id, normalizeId n.id, n.type.getD (gz (normalizeId n.id))⟩])
          (si ++ [normalizeId n.id]) (mapSet sr n.id (normalizeId n.id))
          (by simp [h1]) (mapSet_preserves _ _ h2)
      refine ⟨?_, g2, g3⟩
      rw [g1]
      simp only [sanitizeNodesSpec]
      rw [if_neg hseen, List.append_assoc]
      rfl

/-- The link pass of `setGraph` is the spec's filter-map. -/
lemma setGraph_links_loop (st : SanState)
    (hresolve : ∀ raw, resolveId st.remap raw = normalizeId raw) :
    ∀ (ls : List RawLink) (acc : List CustomLink),
    ls.foldl (setGraphLinkStep st) acc = acc ++ sanitizeLinksSpec st.nodeIds ls := by
  intro ls
  induction ls with
  | nil => intro acc; simp [sanitizeLinksSpec]
  | cons l ls ih =>
    intro acc
    simp only [List.foldl_cons]
    have hstep : setGraphLinkStep st acc l =
        if normalizeId (endpointId l.source) ∈ st.nodeIds ∧
           normalizeId (endpointId l.target) ∈ st.nodeIds ∧
           normalizeId (endpointId l.source) ≠ normalizeId (endpointId l.target) then
          acc ++ [⟨.str (normalizeId (endpointId l.source)),
                   .str (normalizeId (endpointId l.target)), l.expiration⟩]
        else acc := by
      simp only [setGraphLinkStep, hresolve]
      by_cases hmem : normalizeId (endpointId l.source) ∈ st.nodeIds ∧
          normalizeId (endpointId l.target) ∈ st.nodeIds
      · rw [if_pos ⟨List.elem_iff.mpr hmem.1, List.elem_iff.mpr hmem.2⟩]
        by_cases hne : normalizeId (endpointId l.source) ≠ normalizeId (endpointId l.target)
        · rw [if_pos hne, if_pos ⟨hmem.1, hmem.2, hne⟩]
        · rw [if_neg hne, if_neg (by tauto)]
      · have hc : ¬ (st.nodeIds.contains (normalizeId (endpointId l.source)) = true ∧
            st.nodeIds.contains (normalizeId (endpointId l.target)) = true) := by
          intro hc
          exact hmem ⟨List.elem_iff.mp hc.1, List.elem_iff.mp hc.2⟩
        rw [if_neg hc, if_neg (by tauto)]
    by_cases hcond : normalizeId (endpointId l.source) ∈ st.nodeIds ∧
        normalizeId (endpointId l.target) ∈ st.nodeIds ∧
        normalizeId (endpointId l.source) ≠ normalizeId (endpointId l.target)
    · rw [hstep, if_pos hcond, ih]
      simp only [sanitizeLinksSpec, List.filterMap_cons]
      rw [if_pos hcond]
      simp
    · rw [hstep, if_neg hcond, ih]
      simp only [sanitizeLinksSpec, List.filterMap_cons]
      rw [if_neg hcond]

/-- Claim C3: `setGraph` keeps the first node per normalized id (name
forced to the id, category defaulted), resolves every edge endpoint to
its normalized id, and keeps an edge only when both resolved endpoints
are distinct surviving node ids; in particular loading nodes
`["Zone A", "ZONE A"]` with one edge between them yields exactly the node
"ZONE A" and no edges. -/
theorem claim_c3 (gz : String → ZoneType) (data : RawGraphData) (T : Int) :
    (setGraph gz data).nodes = sanitizeNodesSpec gz [] data.nodes ∧
    (setGraph gz data).links =
      sanitizeLinksSpec ((sanitizeNodesSpec gz [] data.nodes).map (fun n => n.id))
        data.links ∧
    setGraph gz ⟨[⟨"Zone A", "Zone A", none⟩, ⟨"ZONE A", "ZONE A", none⟩],
        [⟨.str "Zone A", .str "ZONE A", T⟩]⟩ =
      ⟨[⟨"ZONE A", "ZONE A", gz "ZONE A"⟩], []⟩ := by
  obtain ⟨hn, hids, hremap⟩ :=
    setGraph_nodes_loop gz data.nodes [] [] [] rfl (by intro p hp; cases hp)
  refine ⟨by simpa [setGraph] using hn, ?_, ?_⟩
  · have hlinks := setGraph_links_loop (data.nodes.foldl (setGraphNodeStep gz) ⟨[], [], []⟩)
      (fun raw => resolveId_eq_normalizeId _ hremap raw) data.links []
    simp only [setGraph]
    rw [hlinks, hids, hn]
    simp
  · rfl

/-! ## Fuzzy matcher (`src/services/zoneValidator.ts`)

The Levenshtein matrix code fills row `i` (one per character of `b`) from
row `i-1`; the translation passes the previous row and the current row's
last computed cell explicitly. -/

/-- Inner loop (`for j ...`) of `levenshteinDistance`: `as` is the part
of `a` from column `j`, `prev` the slice of the previous matrix row from
column `j-1`, `left` the current row's cell at column `j-1`.  Each cell is
`matrix[i-1][j-1]` when the characters match, else
`min(matrix[i-1][j-1]+1, matrix[i][j-1]+1, matrix[i-1][j]+1)`. -/
def levRowAux (bc : Char) : List Char → List Nat → Nat → List Nat
  | [], _, _ => []
  | ac :: as, p0 :: p1 :: ps, left =>
    let cur := if bc = ac then p0 else min (min (p0 + 1) (left + 1)) (p1 + 1)
    cur :: levRowAux bc as (p1 :: ps) cur
  | _ :: _, _, _ => []

/-- Outer-loop body: matrix row `i` (first cell `matrix[i][0] = i`). -/
def levRow (bc : Char) (a : List Char) (prev : List Nat) (i : Nat) : List Nat :=
  i :: levRowAux bc a prev i

/-- Outer loop (`for i ...`): fold the rows over the characters of `b`. -/
def levRows (a : List Char) : List Char → List Nat → Nat → List Nat
  | [], prev, _ => prev
  | bc :: bs, prev, i => levRows a bs (levRow bc a prev (i + 1)) (i + 1)

/-- `levenshteinDistance` (zoneValidator.ts lines 12-44): early returns
for empty inputs, then the dynamic program; the result is
`matrix[b.length][a.length]`, the last cell of the last row
(row 0 is `[0, 1, ..., a.length]`). -/
def levenshteinDistance (a b : String) : Nat :=
  if a.data.length = 0 then b.data.length
  else if b.data.length = 0 then a.data.length
  else (levRows a.data b.data (List.range (a.data.length + 1)) 0).getD a.data.length 0

/-- `ValidationResult` of zoneValidator.ts. -/
structure ValidationResult where
  isValid : Bool
  suggestions : List String
deriving DecidableEq, Repr

/-- Stable insertion of an entry into a distance-sorted suggestion list:
the new entry goes before the first strictly-later entry of
greater-or-equal distance.  Together with `sortByDistance` this models
JavaScript's `Array.prototype.sort` with comparator
`(a, b) => a.distance - b.distance`, which is guaranteed stable. -/
def insertByDistance (x : String × Nat) : List (String × Nat) → List (String × Nat)
  | [] => [x]
  | y :: ys => if x.2 ≤ y.2 then x :: y :: ys else y :: insertByDistance x ys

/-- Model of the stable sort `suggestionsWithDistance.sort((a, b) => a.distance - b.distance)`. -/
def sortByDistance : List (String × Nat) → List (String × Nat)
  | [] => []
  | x :: xs => insertByDistance x (sortByDistance xs)

/-- `validateZoneName` (zoneValidator.ts lines 51-85), with the
vocabulary `ALL_ZONES` as a parameter (a JS `Set` iterated in insertion
order, modelled as the list of its elements). -/
def validateZoneName (vocab : List String) (name : Option String) : ValidationResult :=
  match name with
  | none => ⟨false, []⟩
  | some s =>
    if s = "" then ⟨false, []⟩   -- `if (!name)`: the empty string is falsy
    else
      let upperCaseName := jsToUpper s
      if vocab.contains upperCaseName then ⟨true, [upperCaseName]⟩
      else
        let suggestionsWithDistance := vocab.filterMap (fun knownName =>
          let distance := levenshteinDistance upperCaseName knownName
          if distance ≤ 3 then some (knownName, distance) else none)
        let bestSuggestions :=
          ((sortByDistance suggestionsWithDistance).take 5).map (fun p => p.1)
        if bestSuggestions.length = 0 then ⟨false, [s]⟩
        else ⟨false, bestSuggestions⟩

/-! ## Claim C8: the suggestion pipeline -/

/-- The spec's description of the suggestion list: the vocabulary entries
with distance at most 3, sorted ascending by distance with vocabulary
iteration order as the only tiebreak — i.e. the distance-0 entries in
vocabulary order, then distance 1, then 2, then 3. -/
def suggestionBucketsSpec (vocab : List String) (upper : String) : List String :=
  (List.range 4).flatMap (fun d =>
    vocab.filter (fun v => levenshteinDistance upper v = d))

/-- The guarded `filterMap` of `validateZoneName` is a map over the
filtered vocabulary. -/
lemma filterMap_distance (key : String → Nat) (l : List String) :
    l.filterMap (fun v => if key v ≤ 3 then some (v, key v) else none) =
    (l.filter (fun v => key v ≤ 3)).map (fun v => (v, key v)) := by
  induction l with
  | nil => rfl
  | cons v vs ih =>
    by_cases h : key v ≤ 3 <;>
      simp [List.filterMap_cons, List.filter_cons, h, ih]

/-- Inserting an entry after all strictly-smaller distances and before
all greater-or-equal ones. -/
lemma insertByDistance_append (x : String × Nat) :
    ∀ (SA SB : List (String × Nat)), (∀ p ∈ SA, p.2 < x.2) → (∀ p ∈ SB, x.2 ≤ p.2) →
    insertByDistance x (SA ++ SB) = SA ++ x :: SB := by
  intro SA
  induction SA with
  | nil =>
    intro SB _ hB
    cases SB with
    | nil => rfl
    | cons y ys =>
      simp only [List.nil_append, insertByDistance]
      rw [if_pos (hB y (List.mem_cons_self ..))]
  | cons a SA ih =>
    intro SB hA hB
    simp only [List.cons_append, insertByDistance]
    rw [if_neg (by have := hA a (List.mem_cons_self ..); omega)]
    simp only [List.append_eq]
    rw [ih SB (fun p hp => hA p (List.mem_cons_of_mem _ hp)) hB]

/-- The stable sort of distance-annotated entries is the concatenation of
the distance buckets in ascending order, each in input order. -/
lemma sortByDistance_buckets (key : String → Nat) (B : Nat) :
    ∀ l : List String, (∀ v ∈ l, key v ≤ B) →
    sortByDistance (l.map (fun v => (v, key v))) =
      (List.range (B + 1)).flatMap (fun d =>
        (l.filter (fun v => key v = d)).map (fun v => (v, d))) := by
  intro l
  induction l with
  | nil =>
    intro _
    simp only [List.map_nil, sortByDistance, List.filter_nil, List.map_nil]
    exact (List.flatMap_eq_nil_iff.mpr (fun d _ => rfl)).symm
  | cons v vs ih =>
    intro hb
    have hk : key v ≤ B := hb v (List.mem_cons_self ..)
    simp only [List.map_cons, sortByDistance]
    rw [ih (fun w hw => hb w (List.mem_cons_of_mem _ hw))]
    have hsplit : List.range (B + 1) =
        List.range (key v) ++ List.range' (key v) (B + 1 - key v) := by
      have h1 := List.range'_append 0 (key v) (B + 1 - key v) 1
      simp only [Nat.one_mul, Nat.zero_add] at h1
      rw [List.range_eq_range', List.range_eq_range']
      nth_rewrite 1 [show B + 1 = B + 1 - key v + key v from by omega]
      exact h1.symm
    rw [hsplit, List.flatMap_append, List.flatMap_append]
    have hcons : List.range' (key v) (B + 1 - key v) =
        key v :: List.range' (key v + 1) (B - key v) := by
      have : B + 1 - key v = (B - key v) + 1 := by omega
      rw [this, List.range'_succ]
    rw [hcons]
    simp only [List.flatMap_cons]
    rw [insertByDistance_append _ _ _
      (by
        intro p hp
        simp only [List.mem_flatMap, List.mem_map, List.mem_filter] at hp
        obtain ⟨d, hd, w, ⟨_, _⟩, rfl⟩ := hp
        simpa using List.mem_range.mp hd)
      (by
        intro p hp
        rcases List.mem_append.mp hp with hp | hp
        · simp only [List.mem_map, List.mem_filter] at hp
          obtain ⟨w, ⟨_, hw⟩, rfl⟩ := hp
          simp only
          omega
        · simp only [List.mem_flatMap, List.mem_map, List.mem_filter] at hp
          obtain ⟨d, hd, w, ⟨_, _⟩, rfl⟩ := hp
          have := (List.mem_range'_1.mp hd).1
          simp only
          omega)]
    congr 1
    · refine List.flatMap_congr fun d hd => ?_
      have hdlt : d < key v := List.mem_range.mp hd
      rw [List.filter_cons_of_neg (by simpa using by omega)]
    · rw [List.filter_cons_of_pos (by simp)]
      simp only [List.map_cons, List.cons_append, List.cons.injEq, true_and]
      rw [List.append_cancel_left_eq]
      refine List.flatMap_congr fun d hd => ?_
      have hdgt : key v < d := by
        have := (List.mem_range'_1.mp hd).1
        omega
      rw [List.filter_cons_of_neg (by simpa using by omega)]

/-- Claim C8: a null or empty candidate is invalid with no suggestions;
an exact (case-insensitive) vocabulary match is valid with that single
name; otherwise the result is invalid with at most the 5 vocabulary
entries of Levenshtein distance ≤ 3, sorted ascending by distance with
vocabulary order as tiebreak, and with the original candidate as sole
suggestion when no entry is within distance 3. -/
theorem claim_c8 (vocab : List String) (s : String) :
    validateZoneName vocab none = ⟨false, []⟩ ∧
    validateZoneName vocab (some "") = ⟨false, []⟩ ∧
    (s ≠ "" → vocab.contains (jsToUpper s) = true →
      validateZoneName vocab (some s) = ⟨true, [jsToUpper s]⟩) ∧
    (s ≠ "" → vocab.contains (jsToUpper s) = false →
      (validateZoneName vocab (some s)).isValid = false ∧
      (suggestionBucketsSpec vocab (jsToUpper s) = [] →
        (validateZoneName vocab (some s)).suggestions = [s]) ∧
      (suggestionBucketsSpec vocab (jsToUpper s) ≠ [] →
        (validateZoneName vocab (some s)).suggestions =
          (suggestionBucketsSpec vocab (jsToUpper s)).take 5)) := by
  refine ⟨rfl, rfl, ?_, ?_⟩
  · intro hs hmem
    have hm : jsToUpper s ∈ vocab := List.elem_iff.mp hmem
    simp [validateZoneName, hs, hm]
  · intro hs hmem
    have h1 := filterMap_distance (fun v => levenshteinDistance (jsToUpper s) v) vocab
    have h2 := sortByDistance_buckets (fun v => levenshteinDistance (jsToUpper s) v) 3
      (vocab.filter (fun v => decide (levenshteinDistance (jsToUpper s) v ≤ 3)))
      (fun v hv => by simpa using (List.mem_filter.mp hv).2)
    have h3 : ∀ d ∈ List.range 4,
        (vocab.filter (fun v => decide (levenshteinDistance (jsToUpper s) v ≤ 3))).filter
            (fun v => decide (levenshteinDistance (jsToUpper s) v = d)) =
          vocab.filter (fun v => decide (levenshteinDistance (jsToUpper s) v = d)) := by
      intro d hd
      have hd4 : d < 4 := List.mem_range.mp hd
      rw [List.filter_filter]
      refine List.filter_congr fun v _ => ?_
      by_cases h : levenshteinDistance (jsToUpper s) v = d
      · simp [h, show d ≤ 3 from by omega]
      · simp [h]
    have hbest :
        (((sortByDistance (vocab.filterMap (fun knownName =>
            if levenshteinDistance (jsToUpper s) knownName ≤ 3 then
              some (knownName, levenshteinDistance (jsToUpper s) knownName)
            else none))).take 5).map (fun p => p.1)) =
        (suggestionBucketsSpec vocab (jsToUpper s)).take 5 := by
      rw [h1, h2, List.map_take, List.map_flatMap]
      congr 1
      refine List.flatMap_congr fun d hd => ?_
      rw [List.map_map]
      have : ((fun p : String × Nat => p.1) ∘ fun v => (v, d)) = fun v => v := rfl
      rw [this, List.map_id', h3 d hd]
    have hval : validateZoneName vocab (some s) =
        if ((suggestionBucketsSpec vocab (jsToUpper s)).take 5).length = 0 then
          ⟨false, [s]⟩
        else ⟨false, (suggestionBucketsSpec vocab (jsToUpper s)).take 5⟩ := by
      simp only [validateZoneName, if_neg hs, hmem, Bool.false_eq_true, if_false]
      rw [hbest]
    refine ⟨?_, ?_, ?_⟩
    · rw [hval]; split <;> rfl
    · intro hempty
      rw [hval, hempty]
      simp
    · intro hne
      rw [hval, if_neg (by simp [List.take_eq_nil_iff, hne])]

/-- Witness for C8 at the spec's three examples: exact match, near match
(distance 1), and no match within the threshold. -/
theorem claim_c8_witness :
    validateZoneName ["ZONE A", "ZONE B"] (some "ZONE A") = ⟨true, ["ZONE A"]⟩ ∧
    (validateZoneName ["ZONE A"] (some "ZOME A")).suggestions = ["ZONE A"] ∧
    (validateZoneName ["ZONE A"] (some "XQZPLV")).suggestions = ["XQZPLV"] := by
  refine ⟨?_, ?_, ?_⟩
  · have h := (claim_c8 ["ZONE A", "ZONE B"] "ZONE A").2.2.1 (by decide) (by decide)
    rw [h]; decide
  · have h := ((claim_c8 ["ZONE A"] "ZOME A").2.2.2 (by decide) (by decide)).2.2 (by decide)
    rw [h]; decide
  · exact ((claim_c8 ["ZONE A"] "XQZPLV").2.2.2 (by decide) (by decide)).2.1 (by decide)

/-! ## Claim C9: the Levenshtein program computes the edit distance

`Edits a b n` is the formalization of the spec's definition of edit
distance: some alignment of `a` and `b` performs exactly `n` paid
single-character operations (substitution, insertion, deletion, each of
cost 1; matched characters are free; no transposition).  The edit
distance of `a` and `b` is the least such `n`, i.e.
`IsLeast {n | Edits a b n}`.  The bridge between the matrix program and
`Edits` is the textbook recurrence `levRec`. -/

/-- One alignment of the two words performing `n` paid operations. -/
inductive Edits : List Char → List Char → Nat → Prop where
  | nil : Edits [] [] 0
  | copy (c : Char) {xs ys : List Char} {n : Nat} :
      Edits xs ys n → Edits (c :: xs) (c :: ys) n
  | subst (c d : Char) {xs ys : List Char} {n : Nat} :
      Edits xs ys n → Edits (c :: xs) (d :: ys) (n + 1)
  | ins (d : Char) {xs ys : List Char} {n : Nat} :
      Edits xs ys n → Edits xs (d :: ys) (n + 1)
  | del (c : Char) {xs ys : List Char} {n : Nat} :
      Edits xs ys n → Edits (c :: xs) ys (n + 1)

/-- Inner loop of the textbook recurrence: `levGo x tailLen f ys`
computes the distance of `x :: xs` and `ys` where `tailLen = xs.length`
and `f` computes distances from `xs` (structural recursion on `ys`). -/
def levGo (x : Char) (tailLen : Nat) (f : List Char → Nat) : List Char → Nat
  | [] => tailLen + 1
  | y :: ys =>
    if x = y then f ys
    else min (min (f ys) (levGo x tailLen f ys)) (f (y :: ys)) + 1

/-- The textbook Levenshtein recurrence (reference function relating the
matrix program to `Edits`). -/
def levRec : List Char → List Char → Nat
  | [], ys => ys.length
  | x :: xs, ys => levGo x xs.length (levRec xs) ys

lemma levRec_nil_left (ys : List Char) : levRec [] ys = ys.length := rfl

lemma levRec_nil_right : ∀ xs : List Char, levRec xs [] = xs.length
  | [] => rfl
  | _ :: _ => rfl

lemma levRec_cons_cons (x y : Char) (xs ys : List Char) :
    levRec (x :: xs) (y :: ys) =
      if x = y then levRec xs ys
      else min (min (levRec xs ys) (levRec (x :: xs) ys)) (levRec xs (y :: ys)) + 1 := rfl

/-- The empty word reaches any word by insertions only. -/
lemma edits_of_nil : ∀ ys : List Char, Edits [] ys ys.length
  | [] => .nil
  | y :: ys => .ins y (edits_of_nil ys)

/-- Any word reaches the empty word by deletions only. -/
lemma edits_to_nil : ∀ xs : List Char, Edits xs [] xs.length
  | [] => .nil
  | x :: xs => .del x (edits_to_nil xs)

/-- The recurrence value is achieved by some alignment. -/
lemma edits_levRec : ∀ a b : List Char, Edits a b (levRec a b) := by
  intro a
  induction a with
  | nil =>
    intro b
    rw [levRec_nil_left]
    exact edits_of_nil b
  | cons x xs iha =>
    intro b
    induction b with
    | nil =>
      rw [levRec_nil_right]
      exact edits_to_nil (x :: xs)
    | cons y ys ihb =>
      rw [levRec_cons_cons]
      by_cases hxy : x = y
      · rw [if_pos hxy]
        subst hxy
        exact .copy x (iha ys)
      · rw [if_neg hxy]
        rcases min_choice (min (levRec xs ys) (levRec (x :: xs) ys)) (levRec xs (y :: ys))
          with h | h
        · rcases min_choice (levRec xs ys) (levRec (x :: xs) ys) with h' | h'
          · rw [h, h']
            exact .subst x y (iha ys)
          · rw [h, h']
            exact .ins y ihb
        · rw [h]
          exact .del x (iha (y :: ys))

/-- Adding or removing a leading character changes the recurrence value
by at most one, in all four directions (simultaneous strong induction on
the total length). -/
lemma levRec_bounds : ∀ (k : Nat) (xs ys : List Char), xs.length + ys.length ≤ k →
    (∀ x, levRec xs ys ≤ levRec (x :: xs) ys + 1) ∧
    (∀ y, levRec xs ys ≤ levRec xs (y :: ys) + 1) ∧
    (∀ x, levRec (x :: xs) ys ≤ levRec xs ys + 1) ∧
    (∀ y, levRec xs (y :: ys) ≤ levRec xs ys + 1) := by
  intro k
  induction k with
  | zero =>
    intro xs ys h
    have hxs : xs = [] := List.length_eq_zero.mp (by omega)
    have hys : ys = [] := List.length_eq_zero.mp (by omega)
    subst hxs; subst hys
    refine ⟨fun x => ?_, fun y => ?_, fun x => ?_, fun y => ?_⟩ <;>
      simp [levRec_nil_left, levRec_nil_right]
  | succ k ih =>
    intro xs ys h
    refine ⟨?_, ?_, ?_, ?_⟩
    · intro x
      cases ys with
      | nil =>
        rw [levRec_nil_right, levRec_nil_right]
        simp only [List.length_cons]
        omega
      | cons y ys' =>
        rw [levRec_cons_cons]
        have hk : xs.length + ys'.length ≤ k := by
          simp only [List.length_cons] at h
          omega
        by_cases hxy : x = y
        · rw [if_pos hxy]
          exact (ih xs ys' hk).2.2.2 y
        · rw [if_neg hxy]
          have hM2 := (ih xs ys' hk).2.2.2 y
          have hL1 := (ih xs ys' hk).1 x
          omega
    · intro y
      cases xs with
      | nil =>
        rw [levRec_nil_left, levRec_nil_left]
        simp only [List.length_cons]
        omega
      | cons x xs' =>
        rw [levRec_cons_cons]
        have hk : xs'.length + ys.length ≤ k := by
          simp only [List.length_cons] at h
          omega
        by_cases hxy : x = y
        · rw [if_pos hxy]
          exact (ih xs' ys hk).2.2.1 x
        · rw [if_neg hxy]
          have hM1 := (ih xs' ys hk).2.2.1 x
          have hL2 := (ih xs' ys hk).2.1 y
          omega
    · intro x
      cases ys with
      | nil =>
        rw [levRec_nil_right, levRec_nil_right]
        simp only [List.length_cons]
        omega
      | cons y ys' =>
        rw [levRec_cons_cons]
        have hk : xs.length + ys'.length ≤ k := by
          simp only [List.length_cons] at h
          omega
        by_cases hxy : x = y
        · rw [if_pos hxy]
          exact (ih xs ys' hk).2.1 y
        · rw [if_neg hxy]
          omega
    · intro y
      cases xs with
      | nil =>
        rw [levRec_nil_left, levRec_nil_left]
        simp only [List.length_cons]
        omega
      | cons x xs' =>
        rw [levRec_cons_cons]
        have hk : xs'.length + ys.length ≤ k := by
          simp only [List.length_cons] at h
          omega
        by_cases hxy : x = y
        · rw [if_pos hxy]
          exact (ih xs' ys hk).1 x
        · rw [if_neg hxy]
          omega

/-- The recurrence value is a lower bound on the cost of every
alignment. -/
lemma levRec_le_of_edits : ∀ {a b : List Char} {n : Nat},
    Edits a b n → levRec a b ≤ n := by
  intro a b n h
  induction h with
  | nil => exact Nat.le_refl 0
  | copy c _ ih =>
    rw [levRec_cons_cons, if_pos rfl]
    exact ih
  | subst c d _ ih =>
    rename_i xs ys n' _
    rw [levRec_cons_cons]
    by_cases hcd : c = d
    · rw [if_pos hcd]; omega
    · rw [if_neg hcd]; omega
  | ins d _ ih =>
    rename_i xs ys n' _
    have := (levRec_bounds (xs.length + ys.length) xs ys (Nat.le_refl _)).2.2.2 d
    omega
  | del c _ ih =>
    rename_i xs ys n' _
    have := (levRec_bounds (xs.length + ys.length) xs ys (Nat.le_refl _)).2.2.1 c
    omega

/-- The recurrence computes exactly the minimum alignment cost. -/
lemma isLeast_edits_levRec (a b : List Char) :
    IsLeast {n | Edits a b n} (levRec a b) :=
  ⟨edits_levRec a b, fun _ hn => levRec_le_of_edits hn⟩

/-- Edit alignments are symmetric (insertions and deletions swap). -/
lemma edits_symm : ∀ {a b : List Char} {n : Nat}, Edits a b n → Edits b a n := by
  intro a b n h
  induction h with
  | nil => exact .nil
  | copy c _ ih => exact .copy c ih
  | subst c d _ ih => exact .subst d c ih
  | ins d _ ih => exact .del d ih
  | del c _ ih => exact .ins c ih

/-- A matched character may also be appended at the end. -/
lemma edits_snoc_copy (c : Char) : ∀ {a b : List Char} {n : Nat},
    Edits a b n → Edits (a ++ [c]) (b ++ [c]) n := by
  intro a b n h
  induction h with
  | nil => exact .copy c .nil
  | copy e _ ih => exact .copy e ih
  | subst e f _ ih => exact .subst e f ih
  | ins f _ ih => exact .ins f ih
  | del e _ ih => exact .del e ih

/-- A substitution may also happen at the end. -/
lemma edits_snoc_subst (c d : Char) : ∀ {a b : List Char} {n : Nat},
    Edits a b n → Edits (a ++ [c]) (b ++ [d]) (n + 1) := by
  intro a b n h
  induction h with
  | nil => exact .subst c d .nil
  | copy e _ ih => exact .copy e ih
  | subst e f _ ih => exact .subst e f ih
  | ins f _ ih => exact .ins f ih
  | del e _ ih => exact .del e ih

/-- An insertion may also happen at the end. -/
lemma edits_snoc_ins (d : Char) : ∀ {a b : List Char} {n : Nat},
    Edits a b n → Edits a (b ++ [d]) (n + 1) := by
  intro a b n h
  induction h with
  | nil => exact .ins d .nil
  | copy e _ ih => exact .copy e ih
  | subst e f _ ih => exact .subst e f ih
  | ins f _ ih => exact .ins f ih
  | del e _ ih => exact .del e ih

/-- A deletion may also happen at the end. -/
lemma edits_snoc_del (c : Char) : ∀ {a b : List Char} {n : Nat},
    Edits a b n → Edits (a ++ [c]) b (n + 1) := by
  intro a b n h
  induction h with
  | nil => exact .del c .nil
  | copy e _ ih => exact .copy e ih
  | subst e f _ ih => exact .subst e f ih
  | ins f _ ih => exact .ins f ih
  | del e _ ih => exact .del e ih

/-- Reversing both words preserves alignment costs. -/
lemma edits_reverse : ∀ {a b : List Char} {n : Nat},
    Edits a b n → Edits a.reverse b.reverse n := by
  intro a b n h
  induction h with
  | nil => exact .nil
  | copy c _ ih =>
    rw [List.reverse_cons, List.reverse_cons]
    exact edits_snoc_copy c ih
  | subst c d _ ih =>
    rw [List.reverse_cons, List.reverse_cons]
    exact edits_snoc_subst c d ih
  | ins d _ ih =>
    rw [List.reverse_cons]
    exact edits_snoc_ins d ih
  | del c _ ih =>
    rw [List.reverse_cons]
    exact edits_snoc_del c ih

/-! ### The matrix rows compute the recurrence on reversed prefixes

Row `i` of the matrix holds, at column `j`, the distance between the
first `i` characters of `b` and the first `j` characters of `a`; with the
head-recursive `levRec` this is `levRec` of the reversed prefixes.
`rowFrom rbs rca as` is the row slice for the already-reversed processed
prefix `rbs` of `b`, starting at the column whose reversed prefix of `a`
is `rca`, with `as` the remaining characters of `a`. -/
def rowFrom (rbs : List Char) : List Char → List Char → List Nat
  | rca, [] => [levRec rbs rca]
  | rca, ac :: as => levRec rbs rca :: rowFrom rbs (ac :: rca) as

/-- A row slice always starts with its first cell. -/
lemma rowFrom_head_tail (rbs rca as : List Char) :
    rowFrom rbs rca as = levRec rbs rca :: (rowFrom rbs rca as).tail := by
  cases as <;> rfl

/-- The inner loop maps row `i-1` to the tail of row `i`. -/
lemma levRowAux_spec (bc : Char) (rbs : List Char) :
    ∀ (as rca : List Char),
    levRowAux bc as (rowFrom rbs rca as) (levRec (bc :: rbs) rca) =
      (rowFrom (bc :: rbs) rca as).tail := by
  intro as
  induction as with
  | nil => intro rca; rfl
  | cons ac as ih =>
    intro rca
    have hcur : (if bc = ac then levRec rbs rca
        else min (min (levRec rbs rca + 1) (levRec (bc :: rbs) rca + 1))
          (levRec rbs (ac :: rca) + 1)) = levRec (bc :: rbs) (ac :: rca) := by
      rw [levRec_cons_cons]
      by_cases h : bc = ac
      · rw [if_pos h, if_pos h]
      · rw [if_neg h, if_neg h]
        omega
    rw [show rowFrom rbs rca (ac :: as) = levRec rbs rca :: rowFrom rbs (ac :: rca) as
      from rfl]
    rw [rowFrom_head_tail rbs (ac :: rca) as]
    show (if bc = ac then levRec rbs rca
          else min (min (levRec rbs rca + 1) (levRec (bc :: rbs) rca + 1))
            (levRec rbs (ac :: rca) + 1)) ::
        levRowAux bc as (levRec rbs (ac :: rca) :: (rowFrom rbs (ac :: rca) as).tail)
          (if bc = ac then levRec rbs rca
           else min (min (levRec rbs rca + 1) (levRec (bc :: rbs) rca + 1))
             (levRec rbs (ac :: rca) + 1)) =
      (rowFrom (bc :: rbs) rca (ac :: as)).tail
    rw [hcur, ← rowFrom_head_tail rbs (ac :: rca) as, ih (ac :: rca)]
    rw [show rowFrom (bc :: rbs) rca (ac :: as) =
        levRec (bc :: rbs) rca :: rowFrom (bc :: rbs) (ac :: rca) as from rfl]
    show levRec (bc :: rbs) (ac :: rca) :: (rowFrom (bc :: rbs) (ac :: rca) as).tail =
      rowFrom (bc :: rbs) (ac :: rca) as
    exact (rowFrom_head_tail ..).symm

/-- The outer-loop body maps row `i-1` to row `i`. -/
lemma levRow_spec (bc : Char) (rbs a : List Char) :
    levRow bc a (rowFrom rbs [] a) (rbs.length + 1) = rowFrom (bc :: rbs) [] a := by
  unfold levRow
  rw [show rbs.length + 1 = levRec (bc :: rbs) [] from by rw [levRec_nil_right]; rfl]
  rw [levRowAux_spec bc rbs a []]
  exact (rowFrom_head_tail ..).symm

/-- The outer loop turns row `|rbs|` into the final row. -/
lemma levRows_spec (a : List Char) :
    ∀ (bs rbs : List Char) (i : Nat), i = rbs.length →
    levRows a bs (rowFrom rbs [] a) i = rowFrom (bs.reverse ++ rbs) [] a := by
  intro bs
  induction bs with
  | nil =>
    intro rbs i _
    rfl
  | cons bc bs ih =>
    intro rbs i hi
    subst hi
    show levRows a bs (levRow bc a (rowFrom rbs [] a) (rbs.length + 1)) (rbs.length + 1) =
      rowFrom ((bc :: bs).reverse ++ rbs) [] a
    rw [levRow_spec]
    rw [ih (bc :: rbs) (rbs.length + 1) rfl]
    congr 1
    simp [List.append_assoc]

/-- Row 0 of the matrix is `[0, 1, ..., |a|]`. -/
lemma rowFrom_nil_left : ∀ (as rca : List Char),
    rowFrom [] rca as = List.range' rca.length (as.length + 1) := by
  intro as
  induction as with
  | nil => intro rca; rfl
  | cons ac as ih =>
    intro rca
    show levRec [] rca :: rowFrom [] (ac :: rca) as = _
    rw [ih (ac :: rca), levRec_nil_left,
        show (ac :: rca).length = rca.length + 1 from rfl,
        show (ac :: as).length + 1 = (as.length + 1) + 1 from rfl,
        List.range'_succ, List.range'_succ, List.range'_succ]

/-- The last cell of a row slice is the distance to the full reversed
prefix. -/
lemma rowFrom_getD : ∀ (as rca rbs : List Char),
    (rowFrom rbs rca as).getD as.length 0 = levRec rbs (as.reverse ++ rca) := by
  intro as
  induction as with
  | nil => intro rca rbs; rfl
  | cons ac as ih =>
    intro rca rbs
    show (rowFrom rbs (ac :: rca) as).getD as.length 0 =
      levRec rbs ((ac :: as).reverse ++ rca)
    rw [ih (ac :: rca) rbs]
    congr 1
    simp [List.append_assoc]

/-- The matrix program computes the recurrence on the reversed inputs
(and hence, by `Edits` symmetry and reversal, the edit distance). -/
lemma levenshteinDistance_eq_levRec (a b : String) :
    levenshteinDistance a b = levRec b.data.reverse a.data.reverse := by
  unfold levenshteinDistance
  by_cases ha : a.data.length = 0
  · rw [if_pos ha, List.length_eq_zero.mp ha]
    rw [show ([] : List Char).reverse = [] from rfl, levRec_nil_right,
        List.length_reverse]
  · rw [if_neg ha]
    by_cases hb : b.data.length = 0
    · rw [if_pos hb, List.length_eq_zero.mp hb]
      rw [show ([] : List Char).reverse = [] from rfl, levRec_nil_left,
          List.length_reverse]
    · rw [if_neg hb]
      rw [show List.range (a.data.length + 1) = rowFrom [] [] a.data from by
        rw [List.range_eq_range', rowFrom_nil_left a.data []]
        rfl]
      rw [levRows_spec a.data b.data [] 0 rfl]
      rw [List.append_nil, rowFrom_getD a.data [] b.data.reverse, List.append_nil]

/-- Claim C9: for every pair of strings, `levenshteinDistance` equals the
classic Levenshtein edit distance — the least number of paid operations
of any alignment (substitutions, insertions, deletions at cost 1, no
transposition). -/
theorem claim_c9 (a b : String) :
    IsLeast {n | Edits a.data b.data n} (levenshteinDistance a b) := by
  rw [levenshteinDistance_eq_levRec]
  have h := isLeast_edits_levRec b.data.reverse a.data.reverse
  have hset : {n | Edits b.data.reverse a.data.reverse n} =
      {n | Edits a.data b.data n} := by
    ext n
    constructor
    · intro hn
      have h2 := edits_reverse hn
      simp only [List.reverse_reverse] at h2
      exact edits_symm h2
    · intro hn
      exact edits_reverse (edits_symm hn)
  rw [hset] at h
  exact h
